import Mathlib

/-
Verification of the casing-prefix components of the `tokenizers` fork:
  src/tokenizers/src/normalizers/casing_prefix.rs     (whole-text normalizer)
  src/tokenizers/src/pre_tokenizers/casing_prefix.rs  (per-segment pre-tokenizer)
Strings are embedded as lists of Unicode characters; byte positions are UTF-8
byte counts. Rust panics are modelled as `Option.none`, Rust `Result` as `Except`.
-/

/-! ## Character model

The Rust `char` case predicates consult the full Unicode tables, which are
external to this repository. They are embedded here restricted to the
characters this development exercises: the ASCII range plus the pair
U+00C9 (`É`, a two-byte uppercase letter) / U+00E9 (`é`, its lowercase form).
Characters outside the table act as case-less characters (both case tests
false), exactly as unlisted characters such as CJK ideographs do in Rust. -/

/-- Rust `char::is_ascii_digit`: the ASCII digits U+0030 (`0`) .. U+0039 (`9`). -/
def isAsciiDigit (c : Char) : Bool := 48 ≤ c.toNat && c.toNat ≤ 57

/-- Rust `char::is_uppercase` (Unicode `Uppercase`), restricted:
`A`..`Z` (65..90) and U+00C9 `É` (201). -/
def isUppercase (c : Char) : Bool := (65 ≤ c.toNat && c.toNat ≤ 90) || c.toNat == 201

/-- Rust `char::is_lowercase` (Unicode `Lowercase`), restricted:
`a`..`z` (97..122) and U+00E9 `é` (233). -/
def isLowercase (c : Char) : Bool := (97 ≤ c.toNat && c.toNat ≤ 122) || c.toNat == 233

/-- Rust `str::to_lowercase`, character-wise; every character of the
restricted table lowercases to a single character. -/
def toLowerChar (c : Char) : Char :=
  if 65 ≤ c.toNat && c.toNat ≤ 90 then Char.ofNat (c.toNat + 32)
  else if c.toNat == 201 then 'é'
  else c

/-- Rust `str::to_lowercase` over a whole word. -/
def toLowerStr (w : List Char) : List Char := w.map toLowerChar

/-- Modelled from the spec: the word-character class of the external compiled
pattern `\w+` — "letters, digits, underscore" (§3, Glossary) — restricted to
the same character table: underscore (95), ASCII digits, ASCII letters, and
the `É`/`é` pair. -/
def isWordChar (c : Char) : Bool :=
  c.toNat == 95 || isAsciiDigit c || (65 ≤ c.toNat && c.toNat ≤ 90) ||
    (97 ≤ c.toNat && c.toNat ≤ 122) || c.toNat == 201 || c.toNat == 233

/-- UTF-8 byte length of a string. -/
def utf8Len (cs : List Char) : Nat := (cs.map Char.utf8Size).sum

/-! ## Word-match scanner

Modelled from the spec: `word_regex.find_iter(text)` yields the maximal runs of
word characters, left to right, each with its byte range `[start, end)` and its
text (§3: "a maximal contiguous run of word characters found by scanning text
left to right; has a byte-range `[start, end)` ... and a literal substring
value"). Defined structurally on a fuel bounded below by the list length so
that the kernel can evaluate it. -/

def findIterF : Nat → List Char → Nat → List (Nat × Nat × List Char)
  | 0, _, _ => []
  | _ + 1, [], _ => []
  | fuel + 1, c :: rest, pos =>
    if isWordChar c then
      (pos, pos + utf8Len (c :: rest.takeWhile isWordChar), c :: rest.takeWhile isWordChar) ::
        findIterF fuel (rest.dropWhile isWordChar)
          (pos + utf8Len (c :: rest.takeWhile isWordChar))
    else findIterF fuel rest (pos + c.utf8Size)

/-- All word matches of `cs`, with byte positions counted from `pos`. -/
def findIter (cs : List Char) (pos : Nat) : List (Nat × Nat × List Char) :=
  findIterF cs.length cs pos

/-! ## Whole-text normalizer (normalizers/casing_prefix.rs) -/

/-- Marker literal `TOKEN_CAPITALISED = "[CAP]"` (normalizer form, no separator). -/
def capTok : List Char := ['[', 'C', 'A', 'P', ']']

/-- Marker literal `TOKEN_ALL_CAPS = "[ALLCAPS]"` (normalizer form, no separator). -/
def allCapsTok : List Char := ['[', 'A', 'L', 'L', 'C', 'A', 'P', 'S', ']']

/-- Marker literal `TOKEN_MIXED_CASE = "[MIXED]"` (normalizer form, no separator). -/
def mixedTok : List Char := ['[', 'M', 'I', 'X', 'E', 'D', ']']

/-- The third condition of the normalizer's `process_word`:
`word.chars().next().map_or(false, |c| c.is_uppercase())
   && word[1..].chars().all(|c| c.is_lowercase())`.
Rust `&&` short-circuits, and `word[1..]` is a *byte* slice: evaluating it
panics (`none`) unless byte index 1 is a character boundary, i.e. unless the
first character is one byte wide; when it is one byte wide, `word[1..]` holds
exactly the characters after the first. -/
def capCondNorm : List Char → Option Bool
  | [] => some false
  | c :: rest =>
    if isUppercase c then
      if c.utf8Size == 1 then some (rest.all isLowercase) else none
    else some false

/-- Function `CasingPrefix::process_word` of normalizers/casing_prefix.rs (lines 60-74).
`none` models the byte-slice panic inside the third condition. -/
def processWordNorm (w : List Char) : Option (List Char) :=
  if w.all isAsciiDigit then some w
  else if w.all isLowercase then some w
  else
    match capCondNorm w with
    | none => none
    | some true => some (capTok ++ toLowerStr w)
    | some false =>
      if w.all isUppercase then some (allCapsTok ++ toLowerStr w)
      else some (mixedTok ++ toLowerStr w)

/-- Step `find_iter(..).map(process_word).collect::<Vec<_>>()`: left to right; the
first panic aborts the whole call. -/
def processAll : List (List Char) → Option (List (List Char))
  | [] => some []
  | w :: ws =>
    match processWordNorm w, processAll ws with
    | some p, some ps => some (p :: ps)
    | _, _ => none

/-- Rust `Vec::join(" ")`: one ASCII space between consecutive elements, empty
output for an empty vector. -/
def joinSp : List (List Char) → List Char
  | [] => []
  | [w] => w
  | w :: ws => w ++ ' ' :: joinSp ws

/-- Method `CasingPrefix::normalize` (normalizers/casing_prefix.rs, lines 78-88): scan
the current text, classify every word match, join with single spaces, and
replace the entire current text with the joined string — so the returned value
is the buffer's new text (`normalized.replace(&text, &processed_text)` with
`old` equal to the full current text always succeeds, per spec §7).
`none` models a panic escaping from `process_word`. -/
def normalizeWT (text : List Char) : Option (List Char) :=
  (processAll ((findIter text 0).map (fun m => m.2.2))).map joinSp

/-! ## Per-segment pre-tokenizer (pre_tokenizers/casing_prefix.rs) -/

/-- Marker literal `TOKEN_CAPITALISED = "[CAP] "` (segment form, trailing space). -/
def capTokSeg : List Char := ['[', 'C', 'A', 'P', ']', ' ']

/-- Marker literal `TOKEN_ALL_CAPS = "[ALLCAPS] "` (segment form, trailing space). -/
def allCapsTokSeg : List Char := ['[', 'A', 'L', 'L', 'C', 'A', 'P', 'S', ']', ' ']

/-- Marker literal `TOKEN_MIXED_CASE = "[MIXED] "` (segment form, trailing space). -/
def mixedTokSeg : List Char := ['[', 'M', 'I', 'X', 'E', 'D', ']', ' ']

/-- Test `word.chars().next().map_or(false, |c| c.is_uppercase())`. -/
def firstUpper : List Char → Bool
  | [] => false
  | c :: _ => isUppercase c

/-- Function `CasingPrefix::process_word` of pre_tokenizers/casing_prefix.rs (lines
61-73). Its third condition iterates characters (`word.chars().skip(1)`)
instead of byte-slicing, so the function is total. -/
def processWordSeg (w : List Char) : List Char :=
  if w.all isAsciiDigit then w
  else if w.all isLowercase then w
  else if firstUpper w && (w.drop 1).all isLowercase then capTokSeg ++ toLowerStr w
  else if w.all isUppercase then allCapsTokSeg ++ toLowerStr w
  else mixedTokSeg ++ toLowerStr w

/-! ## Offset-tracked segment abstraction

The `NormalizedString` / `PreTokenizedString` collaborators live in the
`tokenizer` module of this repository, which is not part of the sources under
verification; they are modelled from the spec (§6). -/

/-- Modelled from the spec: an offset-tracked segment ("a span of text carrying
its own offset mapping back to an original source text", Glossary), restricted
to segments tracked by one contiguous span of the true input: `original` is the
segment's slice of the original text, `normalized` its current text, and
`offset` the byte position of `original` within the original input. A fresh
segment has `normalized = original` (local frame equal to the original frame). -/
structure NormalizedStr where
  original : List Char
  normalized : List Char
  offset : Nat
deriving DecidableEq, Repr

instance {ε α : Type} [DecidableEq ε] [DecidableEq α] : DecidableEq (Except ε α) := fun a b =>
  match a, b with
  | .error e, .error f => decidable_of_iff (e = f) (by simp)
  | .ok x, .ok y => decidable_of_iff (x = y) (by simp)
  | .error _, .ok _ => isFalse (fun h => Except.noConfusion h)
  | .ok _, .error _ => isFalse (fun h => Except.noConfusion h)

/-- Drop `n` bytes from the front of a string; `none` when `n` overruns the
string or falls inside a character. -/
def dropBytes : List Char → Nat → Option (List Char)
  | cs, 0 => some cs
  | [], _ + 1 => none
  | c :: cs, n + 1 =>
    if c.utf8Size ≤ n + 1 then dropBytes cs (n + 1 - c.utf8Size) else none

/-- Take `n` bytes from the front of a string; `none` when `n` overruns the
string or falls inside a character. -/
def takeBytes : Nat → List Char → Option (List Char)
  | 0, _ => some []
  | _ + 1, [] => none
  | n + 1, c :: cs =>
    if c.utf8Size ≤ n + 1 then (takeBytes (n + 1 - c.utf8Size) cs).map (c :: ·)
    else none

/-- The substring of byte range `[s, e)`, or `none` off char boundaries. -/
def byteSlice (cs : List Char) (s e : Nat) : Option (List Char) :=
  (dropBytes cs s).bind (takeBytes (e - s))

/-- Modelled from the spec: `slice(Range::Original(s..e))` — "translate a local
match range into a valid sub-segment" (§4.3), or `none` on "an internal
alignment failure in the collaborator". The model aligns an original-frame
range only on a segment whose local frame equals the original frame (the shape
the Segment Prefixer's caller supplies); a range that overruns the segment's
original span or cuts a character fails. -/
def sliceNS (ns : NormalizedStr) (s e : Nat) : Option NormalizedStr :=
  if ns.original = ns.normalized then
    match byteSlice ns.original s e with
    | some sub => some ⟨sub, sub, ns.offset + s⟩
    | none => none
  else none

/-- Whether `p` is a leading run of `cs` (character-wise `str::starts_with`). -/
def hasPrefixL : List Char → List Char → Bool
  | [], _ => true
  | _ :: _, [] => false
  | p :: ps, c :: cs => if p = c then hasPrefixL ps cs else false

/-- First character position of `old` as a contiguous substring of `cs`. -/
def findSub (old : List Char) : List Char → Option Nat
  | [] => if old.isEmpty then some 0 else none
  | c :: cs => if hasPrefixL old (c :: cs) then some 0 else (findSub old cs).map (· + 1)

/-- Modelled from the spec: the sub-segment's `replace(old, new)` (§6) —
rewrite the first occurrence of `old` in the current text to `new`; an absent
`old` is an error. -/
def replaceNS (ns : NormalizedStr) (old new : List Char) : Except String NormalizedStr :=
  match findSub old ns.normalized with
  | some i =>
    .ok { ns with normalized := ns.normalized.take i ++ new ++ ns.normalized.drop (i + old.length) }
  | none => .error "replace: old string not found"

/-- The per-match loop of `CasingPrefix::pre_tokenize`
(pre_tokenizers/casing_prefix.rs, lines 79-86): slice each match's byte range
out of the segment — `?`-propagating the opaque error when slicing fails —
replace the sliced text with the processed word, and collect the sub-segments. -/
def segLoop (seg : NormalizedStr) : List (Nat × Nat × List Char) → Except String (List NormalizedStr)
  | [] => .ok []
  | (s, e, w) :: ms =>
    match sliceNS seg s e with
    | none => .error "Failed to slice normalized string"
    | some sub =>
      match replaceNS sub w (processWordSeg w) with
      | .error msg => .error msg
      | .ok sub2 =>
        match segLoop seg ms with
        | .error msg => .error msg
        | .ok tl => .ok (sub2 :: tl)

/-- The closure passed to `pretokenized.split` in `CasingPrefix::pre_tokenize`
(pre_tokenizers/casing_prefix.rs, lines 78-93): run the per-match loop over the
segment's word matches; when it produced no splits (no matches), emit the
segment itself unchanged as a one-element result. -/
def processSegment (seg : NormalizedStr) : Except String (List NormalizedStr) :=
  match segLoop seg (findIter seg.normalized 0) with
  | .error msg => .error msg
  | .ok [] => .ok [seg]
  | .ok (x :: xs) => .ok (x :: xs)

/-! ## Spec-side characterizations used to state the claims -/

/-- The Segment Prefixer's form of a Whole-Text Prefixer output: one space
inserted after a leading marker token, marker-less output unchanged. This is
the spec's "only the marker's separator form differs" (§8). -/
def addMarkerSpace (s : List Char) : List Char :=
  if hasPrefixL capTok s then capTok ++ ' ' :: s.drop capTok.length
  else if hasPrefixL allCapsTok s then allCapsTok ++ ' ' :: s.drop allCapsTok.length
  else if hasPrefixL mixedTok s then mixedTok ++ ' ' :: s.drop mixedTok.length
  else s

/-- The word matches of a text, characterized independently of the scanner:
split the text at its non-word characters and keep the non-empty chunks — the
maximal word-character runs, in left-to-right order. -/
def wordsOf (cs : List Char) : List (List Char) :=
  (cs.splitOnP (fun c => !isWordChar c)).filter (fun w => !w.isEmpty)

-- sanity checks (mirroring the repository's test expectations)
example : processWordNorm ['H', 'e', 'l', 'l', 'o'] = some "[CAP]hello".toList := by decide
example : processWordNorm ['W', 'O', 'R', 'L', 'D'] = some "[ALLCAPS]world".toList := by decide
example : processWordSeg ['W', 'O', 'R', 'L', 'D'] = "[ALLCAPS] world".toList := by decide
example : processWordNorm ['1', '2', '3'] = some ['1', '2', '3'] := by decide
example : processWordNorm ['É'] = none := by decide
example : processWordSeg ['É'] = "[CAP] é".toList := by decide
example :
    normalizeWT "Hello WORLD MixedCase 123 lowercase".toList
      = some "[CAP]hello [ALLCAPS]world [MIXED]mixedcase 123 lowercase".toList := by decide
example :
    normalizeWT "ALL123CAPS 123 mIxEd123CaSe".toList
      = some "[MIXED]all123caps 123 [MIXED]mixed123case".toList := by decide
example :
    processSegment ⟨"Hello WORLD".toList, "Hello WORLD".toList, 0⟩
      = .ok [⟨"Hello".toList, "[CAP] hello".toList, 0⟩,
             ⟨"WORLD".toList, "[ALLCAPS] world".toList, 6⟩] := by decide
example :
    processSegment ⟨"- !".toList, "- !".toList, 0⟩
      = .ok [⟨"- !".toList, "- !".toList, 0⟩] := by decide
example : wordsOf "Hello WORLD".toList = ["Hello".toList, "WORLD".toList] := by decide
example : addMarkerSpace "[CAP]hello".toList = "[CAP] hello".toList := by decide

/-! ## Helper lemmas: character table -/

lemma isAsciiDigit_of_upper {c : Char} (h : isUppercase c = true) : isAsciiDigit c = false := by
  simp only [isUppercase, Bool.or_eq_true, Bool.and_eq_true, decide_eq_true_eq, beq_iff_eq] at h
  simp only [isAsciiDigit, Bool.and_eq_false_iff, decide_eq_false_iff_not]
  omega

lemma isLowercase_of_upper {c : Char} (h : isUppercase c = true) : isLowercase c = false := by
  simp only [isUppercase, Bool.or_eq_true, Bool.and_eq_true, decide_eq_true_eq, beq_iff_eq] at h
  simp only [isLowercase, Bool.or_eq_false_iff, Bool.and_eq_false_iff, decide_eq_false_iff_not,
    beq_eq_false_iff_ne, ne_eq]
  omega

/-! ## Helper lemmas: marker-space normal forms -/

lemma addMarkerSpace_nil : addMarkerSpace [] = [] := by decide

lemma addMarkerSpace_cons_ne {c : Char} (rest : List Char) (h : c.toNat ≠ 91) :
    addMarkerSpace (c :: rest) = c :: rest := by
  have hc : c ≠ '[' := by
    intro he; subst he; exact h rfl
  simp [addMarkerSpace, capTok, allCapsTok, mixedTok, hasPrefixL, Ne.symm hc]

lemma addMarkerSpace_cap (y : List Char) :
    addMarkerSpace (capTok ++ y) = capTok ++ ' ' :: y := by
  simp [addMarkerSpace, capTok, hasPrefixL]

lemma addMarkerSpace_allCaps (y : List Char) :
    addMarkerSpace (allCapsTok ++ y) = allCapsTok ++ ' ' :: y := by
  simp [addMarkerSpace, capTok, allCapsTok, hasPrefixL]

lemma addMarkerSpace_mixed (y : List Char) :
    addMarkerSpace (mixedTok ++ y) = mixedTok ++ ' ' :: y := by
  simp [addMarkerSpace, capTok, allCapsTok, mixedTok, hasPrefixL]

lemma capTokSeg_eq (x : List Char) : capTokSeg ++ x = capTok ++ ' ' :: x := rfl

lemma allCapsTokSeg_eq (x : List Char) : allCapsTokSeg ++ x = allCapsTok ++ ' ' :: x := rfl

lemma mixedTokSeg_eq (x : List Char) : mixedTokSeg ++ x = mixedTok ++ ' ' :: x := rfl

/-- Claim C2 (amended): whenever the Whole-Text Prefixer's `process_word`
returns at all (it panics on words whose first character is a multi-byte
uppercase letter), the Segment Prefixer's `process_word` chooses the same
casing category and the same lowered form: its output is the Whole-Text output
with a single space inserted after the marker, and nothing else differs. -/
theorem processWord_agreement (w out : List Char) (h : processWordNorm w = some out) :
    processWordSeg w = addMarkerSpace out := by
  by_cases h1 : w.all isAsciiDigit
  · rw [processWordNorm, if_pos h1] at h
    obtain rfl : w = out := by injection h
    rw [processWordSeg, if_pos h1]
    cases w with
    | nil => exact addMarkerSpace_nil.symm
    | cons c rest =>
      have hc : isAsciiDigit c = true := by
        simp only [List.all_cons, Bool.and_eq_true] at h1; exact h1.1
      have hne : c.toNat ≠ 91 := by
        simp only [isAsciiDigit, Bool.and_eq_true, decide_eq_true_eq] at hc; omega
      exact (addMarkerSpace_cons_ne rest hne).symm
  · by_cases h2 : w.all isLowercase
    · rw [processWordNorm, if_neg h1, if_pos h2] at h
      obtain rfl : w = out := by injection h
      rw [processWordSeg, if_neg h1, if_pos h2]
      cases w with
      | nil => exact addMarkerSpace_nil.symm
      | cons c rest =>
        have hc : isLowercase c = true := by
          simp only [List.all_cons, Bool.and_eq_true] at h2; exact h2.1
        have hne : c.toNat ≠ 91 := by
          simp only [isLowercase, Bool.or_eq_true, Bool.and_eq_true, decide_eq_true_eq,
            beq_iff_eq] at hc
          omega
        exact (addMarkerSpace_cons_ne rest hne).symm
    · cases w with
      | nil => simp at h1
      | cons c rest =>
        rw [processWordNorm, if_neg h1, if_neg h2] at h
        rw [processWordSeg, if_neg h1, if_neg h2]
        by_cases hu : isUppercase c = true
        · by_cases hb : c.utf8Size = 1
          · by_cases hr : rest.all isLowercase
            · have hcc : capCondNorm (c :: rest) = some true := by
                simp [capCondNorm, hu, hb, hr]
              rw [hcc] at h
              obtain rfl : capTok ++ toLowerStr (c :: rest) = out := by injection h
              have hcond : (firstUpper (c :: rest) && ((c :: rest).drop 1).all isLowercase)
                  = true := by
                simp [firstUpper, hu, hr]
              rw [if_pos hcond, addMarkerSpace_cap, capTokSeg_eq]
            · have hcc : capCondNorm (c :: rest) = some false := by
                simp [capCondNorm, hu, hb, hr]
              rw [hcc] at h
              rw [if_neg (by simp [firstUpper, hr])]
              by_cases h4 : (c :: rest).all isUppercase
              · rw [if_pos h4] at h ⊢
                obtain rfl : allCapsTok ++ toLowerStr (c :: rest) = out := by injection h
                rw [addMarkerSpace_allCaps, allCapsTokSeg_eq]
              · rw [if_neg h4] at h ⊢
                obtain rfl : mixedTok ++ toLowerStr (c :: rest) = out := by injection h
                rw [addMarkerSpace_mixed, mixedTokSeg_eq]
          · have hcc : capCondNorm (c :: rest) = none := by
              simp [capCondNorm, hu, hb]
            rw [hcc] at h
            exact absurd h (by simp)
        · have hcc : capCondNorm (c :: rest) = some false := by
            simp [capCondNorm, hu]
          rw [hcc] at h
          rw [if_neg (by simp [firstUpper, hu])]
          by_cases h4 : (c :: rest).all isUppercase
          · rw [if_pos h4] at h ⊢
            obtain rfl : allCapsTok ++ toLowerStr (c :: rest) = out := by injection h
            rw [addMarkerSpace_allCaps, allCapsTokSeg_eq]
          · rw [if_neg h4] at h ⊢
            obtain rfl : mixedTok ++ toLowerStr (c :: rest) = out := by injection h
            rw [addMarkerSpace_mixed, mixedTokSeg_eq]

/-! ## Helper lemmas: byte arithmetic and the scanner -/

lemma utf8Len_cons (c : Char) (cs : List Char) :
    utf8Len (c :: cs) = c.utf8Size + utf8Len cs := by
  simp [utf8Len]

lemma dropBytes_cons (c : Char) (cs : List Char) (n : Nat) (hn : n ≠ 0) :
    dropBytes (c :: cs) n =
      if c.utf8Size ≤ n then dropBytes cs (n - c.utf8Size) else none := by
  obtain ⟨m, rfl⟩ : ∃ m, n = m + 1 := ⟨n - 1, by omega⟩
  rfl

lemma takeBytes_cons (n : Nat) (hn : n ≠ 0) (c : Char) (cs : List Char) :
    takeBytes n (c :: cs) =
      if c.utf8Size ≤ n then (takeBytes (n - c.utf8Size) cs).map (c :: ·) else none := by
  obtain ⟨m, rfl⟩ : ∃ m, n = m + 1 := ⟨n - 1, by omega⟩
  rfl

lemma takeBytes_exact (w tail : List Char) : takeBytes (utf8Len w) (w ++ tail) = some w := by
  induction w with
  | nil => simp [utf8Len, takeBytes]
  | cons c w ih =>
    have hpos := Char.utf8Size_pos c
    rw [List.cons_append, utf8Len_cons,
      takeBytes_cons _ (by omega), if_pos (by omega),
      show c.utf8Size + utf8Len w - c.utf8Size = utf8Len w by omega, ih]
    rfl

lemma dropBytes_append (w tail : List Char) (k : Nat) :
    dropBytes (w ++ tail) (utf8Len w + k) = dropBytes tail k := by
  induction w with
  | nil => simp [utf8Len]
  | cons c w ih =>
    have hpos := Char.utf8Size_pos c
    rw [List.cons_append, utf8Len_cons,
      dropBytes_cons _ _ _ (by omega), if_pos (by omega),
      show c.utf8Size + utf8Len w + k - c.utf8Size = utf8Len w + k by omega]
    exact ih

/-- Every match reported by the scanner starts at or after the base position,
ends exactly a word's worth of bytes after its start, is a non-empty run of
word characters, and its text really sits at its reported byte offset in the
scanned string. -/
lemma findIterF_mem :
    ∀ (fuel : Nat) (cs : List Char) (pos : Nat), cs.length ≤ fuel →
      ∀ s e w, (s, e, w) ∈ findIterF fuel cs pos →
        pos ≤ s ∧ e = s + utf8Len w ∧ w ≠ [] ∧ w.all isWordChar = true ∧
        ∃ tail, dropBytes cs (s - pos) = some (w ++ tail) := by
  intro fuel
  induction fuel with
  | zero =>
    intro cs pos _ s e w hmem
    simp [findIterF] at hmem
  | succ fuel ih =>
    intro cs pos hf s e w hmem
    cases cs with
    | nil => simp [findIterF] at hmem
    | cons c rest =>
      rw [findIterF] at hmem
      by_cases hw : isWordChar c = true
      · rw [if_pos hw] at hmem
        rcases List.mem_cons.1 hmem with hhead | htail
        · obtain ⟨rfl, rfl, rfl⟩ : s = pos ∧
              e = pos + utf8Len (c :: rest.takeWhile isWordChar) ∧
              w = c :: rest.takeWhile isWordChar := by
            injection hhead with h1 h23
            injection h23 with h2 h3
            exact ⟨h1, h2, h3⟩
          refine ⟨le_refl _, rfl, by simp, ?_, rest.dropWhile isWordChar, ?_⟩
          · simp [List.all_cons, hw, List.all_takeWhile]
          · rw [Nat.sub_self]
            show some (c :: rest) = _
            rw [show (c :: rest.takeWhile isWordChar) ++ rest.dropWhile isWordChar
                = c :: rest by
              rw [List.cons_append, List.takeWhile_append_dropWhile]]
        · have hlen : (rest.dropWhile isWordChar).length ≤ fuel := by
            have h1 : (rest.dropWhile isWordChar).length ≤ rest.length :=
              (List.dropWhile_sublist _).length_le
            simp only [List.length_cons] at hf
            omega
          obtain ⟨hpos, he, hw1, hw2, tail, ht⟩ := ih _ _ hlen s e w htail
          refine ⟨by omega, he, hw1, hw2, tail, ?_⟩
          rw [show (c :: rest : List Char)
              = (c :: rest.takeWhile isWordChar) ++ rest.dropWhile isWordChar by
            rw [List.cons_append, List.takeWhile_append_dropWhile]]
          rw [show s - pos = utf8Len (c :: rest.takeWhile isWordChar)
              + (s - (pos + utf8Len (c :: rest.takeWhile isWordChar))) by omega]
          rw [dropBytes_append]
          exact ht
      · rw [if_neg hw] at hmem
        have hlen : rest.length ≤ fuel := by
          simp only [List.length_cons] at hf; omega
        obtain ⟨hpos, he, hw1, hw2, tail, ht⟩ := ih _ _ hlen s e w hmem
        have hpos' := Char.utf8Size_pos c
        refine ⟨by omega, he, hw1, hw2, tail, ?_⟩
        rw [dropBytes_cons _ _ _ (by omega), if_pos (by omega),
          show s - pos - c.utf8Size = s - (pos + c.utf8Size) by omega]
        exact ht

/-! ## Helper lemmas: segment operations -/

lemma hasPrefixL_self (l : List Char) : hasPrefixL l l = true := by
  induction l with
  | nil => rfl
  | cons c cs ih => simp [hasPrefixL, ih]

/-- Replacing the full current text of a segment swaps in the new text. -/
lemma replaceNS_full (ns : NormalizedStr) (new : List Char) :
    replaceNS ns ns.normalized new = .ok { ns with normalized := new } := by
  have hfind : findSub ns.normalized ns.normalized = some 0 := by
    cases h : ns.normalized with
    | nil => simp [findSub]
    | cons c cs => simp [findSub, hasPrefixL_self]
  rw [replaceNS, hfind]
  simp [List.drop_length]

/-- Slicing an identity segment at a byte range carving out exactly `w` yields
the fresh identity sub-segment holding `w`, its offset shifted by the start. -/
lemma sliceNS_identity (orig : List Char) (off s : Nat) (w tail : List Char)
    (hdrop : dropBytes orig s = some (w ++ tail)) :
    sliceNS ⟨orig, orig, off⟩ s (s + utf8Len w) = some ⟨w, w, off + s⟩ := by
  have hbs : byteSlice orig s (s + utf8Len w) = some w := by
    rw [byteSlice, hdrop, show s + utf8Len w - s = utf8Len w by omega]
    exact takeBytes_exact w tail
  rw [sliceNS, if_pos rfl, hbs]

/-- On an identity segment, the per-match loop succeeds on any list of matches
that really sit at their reported byte offsets, and produces one sub-segment
per match: its `original` is the matched word, its text the processed word,
and its offset the segment offset plus the match start. -/
lemma segLoop_identity (orig : List Char) (off : Nat)
    (ms : List (Nat × Nat × List Char))
    (h : ∀ m ∈ ms, m.2.1 = m.1 + utf8Len m.2.2 ∧
      ∃ tail, dropBytes orig m.1 = some (m.2.2 ++ tail)) :
    segLoop ⟨orig, orig, off⟩ ms =
      .ok (ms.map fun m => ⟨m.2.2, processWordSeg m.2.2, off + m.1⟩) := by
  induction ms with
  | nil => rfl
  | cons m ms ih =>
    obtain ⟨he, tail, hdrop⟩ := h m (List.mem_cons_self m ms)
    obtain ⟨s, e, w⟩ := m
    simp only at he hdrop
    rw [segLoop]
    rw [show e = s + utf8Len w from he]
    rw [sliceNS_identity orig off s w tail hdrop]
    dsimp only
    rw [replaceNS_full ⟨w, w, off + s⟩ (processWordSeg w)]
    dsimp only
    rw [ih (fun m hm => h m (List.mem_cons_of_mem _ hm))]
    rfl

/-- If the per-match loop succeeded, every match's slice had succeeded. -/
lemma segLoop_ok_slices (seg : NormalizedStr) :
    ∀ (ms : List (Nat × Nat × List Char)) (outs : List NormalizedStr),
      segLoop seg ms = .ok outs → ∀ m ∈ ms, sliceNS seg m.1 m.2.1 ≠ none := by
  intro ms
  induction ms with
  | nil => intro outs _ m hm; cases hm
  | cons m0 ms ih =>
    intro outs h m hm
    obtain ⟨s, e, w⟩ := m0
    rw [segLoop] at h
    cases hs : sliceNS seg s e with
    | none => rw [hs] at h; cases h
    | some sub =>
      rw [hs] at h
      dsimp only at h
      cases hr : replaceNS sub w (processWordSeg w) with
      | error msg => rw [hr] at h; cases h
      | ok sub2 =>
        rw [hr] at h
        dsimp only at h
        cases hl : segLoop seg ms with
        | error msg => rw [hl] at h; cases h
        | ok tl =>
          rcases List.mem_cons.1 hm with rfl | hmem
          · simp only
            rw [hs]
            exact fun hc => Option.noConfusion hc
          · exact ih tl hl m hmem

/-! ## Helper lemmas: the words of a text -/

lemma dropWhile_head_false {p : Char → Bool} :
    ∀ (l : List Char) (d : Char) (rem : List Char),
      l.dropWhile p = d :: rem → p d = false := by
  intro l
  induction l with
  | nil => intro d rem h; cases h
  | cons c cs ih =>
    intro d rem h
    rw [List.dropWhile_cons] at h
    by_cases hc : p c = true
    · rw [if_pos hc] at h; exact ih d rem h
    · rw [if_neg hc] at h
      injection h with h1 _
      subst h1
      exact Bool.eq_false_iff.2 hc

lemma wordsOf_nil : wordsOf [] = [] := by
  simp [wordsOf, List.splitOnP_nil]

lemma wordsOf_cons_not_word (c : Char) (rest : List Char) (h : isWordChar c = false) :
    wordsOf (c :: rest) = wordsOf rest := by
  simp [wordsOf, List.splitOnP_cons, h]

/-- Prepending a maximal non-empty word-character run to a text that does not
begin with a word character contributes exactly one word. -/
lemma wordsOf_run (run rem : List Char) (hne : run ≠ [])
    (hall : run.all isWordChar = true)
    (hrem : rem = [] ∨ ∃ d rem2, rem = d :: rem2 ∧ isWordChar d = false) :
    wordsOf (run ++ rem) = run :: wordsOf rem := by
  have hnp : ∀ x ∈ run, ¬ ((!isWordChar x) = true) := by
    intro x hx
    have := List.all_eq_true.1 hall x hx
    simp [this]
  rcases hrem with rfl | ⟨d, rem2, rfl, hd⟩
  · rw [List.append_nil, wordsOf, List.splitOnP_eq_single _ _ hnp]
    rw [wordsOf_nil]
    simp [List.isEmpty_iff, hne]
  · rw [wordsOf, List.splitOnP_first _ _ hnp d (by simp [hd]) rem2]
    rw [wordsOf_cons_not_word d rem2 hd, wordsOf]
    simp [List.isEmpty_iff, hne]

/-- The texts of the scanner's matches are exactly the words of the text. -/
lemma findIterF_words :
    ∀ (fuel : Nat) (cs : List Char) (pos : Nat), cs.length ≤ fuel →
      (findIterF fuel cs pos).map (fun m => m.2.2) = wordsOf cs := by
  intro fuel
  induction fuel with
  | zero =>
    intro cs pos hf
    obtain rfl : cs = [] := List.length_eq_zero.1 (Nat.le_zero.1 hf)
    rw [findIterF, wordsOf_nil]
    rfl
  | succ fuel ih =>
    intro cs pos hf
    cases cs with
    | nil => rw [findIterF, wordsOf_nil]; rfl
    | cons c rest =>
      rw [findIterF]
      by_cases hw : isWordChar c = true
      · rw [if_pos hw, List.map_cons]
        have hlen : (rest.dropWhile isWordChar).length ≤ fuel := by
          have := (List.dropWhile_sublist (l := rest) isWordChar).length_le
          simp only [List.length_cons] at hf
          omega
        rw [ih _ _ hlen]
        rw [show (c :: rest : List Char)
            = (c :: rest.takeWhile isWordChar) ++ rest.dropWhile isWordChar by
          rw [List.cons_append, List.takeWhile_append_dropWhile]]
        rw [wordsOf_run _ _ (by simp) (by simp [hw, List.all_takeWhile]) ?_]
        cases hd : rest.dropWhile isWordChar with
        | nil => exact Or.inl rfl
        | cons d rem2 => exact Or.inr ⟨d, rem2, rfl, dropWhile_head_false rest d rem2 hd⟩
      · rw [if_neg hw, wordsOf_cons_not_word c rest (Bool.eq_false_iff.2 hw)]
        have hlen : rest.length ≤ fuel := by
          simp only [List.length_cons] at hf; omega
        exact ih _ _ hlen

/-! ## Claim theorems -/

/-- Claim C1 (the code contradicts it): the Whole-Text Prefixer's
`process_word` is *not* total — on the single-character word `"É"` (a
two-byte uppercase letter) the first two predicates fail, the uppercase test
of the third succeeds, and evaluating `word[1..]` panics because byte index 1
falls inside the character. The model returns `none` exactly there. -/
theorem processWordNorm_multibyte_panic : processWordNorm ['É'] = none := by decide

/-- Claim C2 counterexample: at the word `"É"` the two `process_word`s do not
agree — the Whole-Text one produces no output at all (panic), while the
Segment one returns a capitalised form, so no output of the Whole-Text
Prefixer relates to the Segment Prefixer's output there. -/
theorem processWord_agreement_fails_multibyte :
    ¬ ∃ out, processWordNorm ['É'] = some out ∧ processWordSeg ['É'] = addMarkerSpace out := by
  rintro ⟨out, h, _⟩
  rw [show processWordNorm ['É'] = none by decide] at h
  cases h

/-- Claim C2 witness at the word `"Hello"`. -/
theorem processWord_agreement_witness :
    processWordSeg "Hello".toList = addMarkerSpace "[CAP]hello".toList :=
  processWord_agreement "Hello".toList "[CAP]hello".toList (by decide)

/-- Claim C3: on a segment whose local frame equals the original frame, the
Segment Prefixer emits one sub-segment per word match whose `original` is
exactly the matched word — hence its offset range `[off + start, off + end)`
with `end = start + utf8Len word` is the original input's byte span of that
word, recomputed from the match's position in the current text — while its
text is the processed (possibly marker-prefixed, case-folded) form, whose
length is decoupled from the span length. -/
theorem processSegment_offsets (orig : List Char) (off : Nat)
    (hne : findIter orig 0 ≠ []) :
    processSegment ⟨orig, orig, off⟩ =
      .ok ((findIter orig 0).map fun m =>
        ⟨m.2.2, processWordSeg m.2.2, off + m.1⟩) ∧
    ∀ m ∈ findIter orig 0, m.2.1 = m.1 + utf8Len m.2.2 := by
  have hprops : ∀ m ∈ findIter orig 0, m.2.1 = m.1 + utf8Len m.2.2 ∧
      ∃ tail, dropBytes orig m.1 = some (m.2.2 ++ tail) := by
    intro m hm
    obtain ⟨s, e, w⟩ := m
    obtain ⟨_, he, _, _, tail, ht⟩ := findIterF_mem orig.length orig 0 (le_refl _) s e w hm
    rw [Nat.sub_zero] at ht
    exact ⟨he, tail, ht⟩
  have hloop := segLoop_identity orig off (findIter orig 0) hprops
  refine ⟨?_, fun m hm => (hprops m hm).1⟩
  rw [processSegment]
  dsimp only
  rw [hloop]
  cases hms : findIter orig 0 with
  | nil => exact absurd hms hne
  | cons m0 ms => rfl

/-- Claim C3 witness: the segment `"Ab cd"` viewed at offset 7 of the original
input. -/
theorem processSegment_offsets_witness :
    (processSegment ⟨"Ab cd".toList, "Ab cd".toList, 7⟩ =
      .ok ((findIter "Ab cd".toList 0).map fun m =>
        ⟨m.2.2, processWordSeg m.2.2, 7 + m.1⟩)) ∧
    ∀ m ∈ findIter "Ab cd".toList 0, m.2.1 = m.1 + utf8Len m.2.2 :=
  processSegment_offsets "Ab cd".toList 7 (by decide)

/-- Claim C4 counterexample: the claim quantifies over every input text, but on
the text `"É"` the Whole-Text Prefixer produces no new text at all — the
classification of its single word match panics — rather than the joined
processed-word string the claim promises. -/
theorem normalizeWT_multibyte_no_result : normalizeWT ['É'] = none := by decide

/-- Claim C4 (amended): for every input text whose word matches all classify
without panicking, `normalize` produces exactly the processed-word strings of
the word matches (the maximal word-character runs, taken left to right),
joined with a single ASCII space; all non-word material is discarded, and a
text with zero word matches yields the empty string. -/
theorem normalizeWT_join_spec (text : List Char) (ps : List (List Char))
    (h : processAll (wordsOf text) = some ps) :
    normalizeWT text = some (joinSp ps) ∧
    (wordsOf text = [] → normalizeWT text = some []) := by
  have hw : (findIter text 0).map (fun m => m.2.2) = wordsOf text :=
    findIterF_words text.length text 0 (le_refl _)
  constructor
  · rw [normalizeWT, hw, h]
    rfl
  · intro hz
    rw [normalizeWT, hw, hz]
    rfl

/-- Claim C4 witness: `"Hello, WORLD!"` — punctuation and spacing discarded,
both words classified and joined with one space. -/
theorem normalizeWT_join_spec_witness :
    normalizeWT "Hello, WORLD!".toList =
      some (joinSp ["[CAP]hello".toList, "[ALLCAPS]world".toList]) ∧
    (wordsOf "Hello, WORLD!".toList = [] →
      normalizeWT "Hello, WORLD!".toList = some []) :=
  normalizeWT_join_spec "Hello, WORLD!".toList
    ["[CAP]hello".toList, "[ALLCAPS]world".toList] (by decide)

/-- Claim C5: a segment whose text contains no word match is emitted unchanged
as exactly one output segment; a segment (in the original frame) with one or
more matches yields exactly one output sub-segment per match — each carrying a
non-empty all-word-character `original` and the processed text — so every gap
and non-word character is dropped from the output. -/
theorem processSegment_zero_match_and_gaps (seg : NormalizedStr)
    (orig : List Char) (off : Nat)
    (hz : findIter seg.normalized 0 = [])
    (hne : findIter orig 0 ≠ []) :
    processSegment seg = .ok [seg] ∧
    ∃ outs, processSegment ⟨orig, orig, off⟩ = .ok outs ∧
      outs.length = (findIter orig 0).length ∧
      ∀ o ∈ outs, o.normalized = processWordSeg o.original ∧
        o.original ≠ [] ∧ o.original.all isWordChar = true := by
  constructor
  · rw [processSegment, hz]
    rfl
  · have hprops : ∀ m ∈ findIter orig 0, m.2.1 = m.1 + utf8Len m.2.2 ∧
        ∃ tail, dropBytes orig m.1 = some (m.2.2 ++ tail) := by
      intro m hm
      obtain ⟨s, e, w⟩ := m
      obtain ⟨_, he, _, _, tail, ht⟩ := findIterF_mem orig.length orig 0 (le_refl _) s e w hm
      rw [Nat.sub_zero] at ht
      exact ⟨he, tail, ht⟩
    have hloop := segLoop_identity orig off (findIter orig 0) hprops
    refine ⟨(findIter orig 0).map fun m => ⟨m.2.2, processWordSeg m.2.2, off + m.1⟩,
      ?_, by rw [List.length_map], ?_⟩
    · rw [processSegment]
      dsimp only
      rw [hloop]
      cases hms : findIter orig 0 with
      | nil => exact absurd hms hne
      | cons m0 ms => rfl
    · intro o ho
      obtain ⟨m, hm, rfl⟩ := List.mem_map.1 ho
      obtain ⟨s, e, w⟩ := m
      obtain ⟨_, _, hne', hall, _⟩ := findIterF_mem orig.length orig 0 (le_refl _) s e w hm
      exact ⟨rfl, hne', hall⟩

/-- Claim C5 witness: the all-punctuation segment `"- !"` survives unchanged;
the two-word original-frame segment `"Hi there"` yields two sub-segments. -/
theorem processSegment_zero_match_and_gaps_witness :
    processSegment ⟨"- !".toList, "- !".toList, 0⟩ = .ok [⟨"- !".toList, "- !".toList, 0⟩] ∧
    ∃ outs, processSegment ⟨"Hi there".toList, "Hi there".toList, 3⟩ = .ok outs ∧
      outs.length = (findIter "Hi there".toList 0).length ∧
      ∀ o ∈ outs, o.normalized = processWordSeg o.original ∧
        o.original ≠ [] ∧ o.original.all isWordChar = true :=
  processSegment_zero_match_and_gaps ⟨"- !".toList, "- !".toList, 0⟩
    "Hi there".toList 3 (by decide) (by decide)

/-- Claim C6: when the segment abstraction cannot translate some word match's
byte range into a sub-segment (`slice` returns `none`), `pre_tokenize` fails
for that segment with an opaque internal error — the result is an `error`, so
no partial list of sub-segments is committed. -/
theorem processSegment_slice_failure (seg : NormalizedStr)
    (h : ∃ m ∈ findIter seg.normalized 0, sliceNS seg m.1 m.2.1 = none) :
    ∃ msg, processSegment seg = .error msg := by
  obtain ⟨m, hm, hs⟩ := h
  cases hres : segLoop seg (findIter seg.normalized 0) with
  | error msg => exact ⟨msg, by rw [processSegment, hres]⟩
  | ok outs => exact absurd hs (segLoop_ok_slices seg _ outs hres m hm)

/-- Claim C6 witness: a segment whose current text cannot be aligned to its
original span makes the slice fail and the whole call error. -/
theorem processSegment_slice_failure_witness :
    ∃ msg, processSegment ⟨"x".toList, "abc".toList, 0⟩ = .error msg :=
  processSegment_slice_failure ⟨"x".toList, "abc".toList, 0⟩ (by decide)

/-- Claim C7 counterexample: `"É"` is a word consisting of a single uppercase
letter, yet the Whole-Text Prefixer's `process_word` does not classify it
Capitalized — it produces no output at all (the byte-slice in the
first-upper/rest-lower predicate panics before the predicate can come out
vacuously true). -/
theorem single_upper_multibyte_not_capitalized :
    processWordNorm ['É'] ≠ some (capTok ++ toLowerStr ['É']) := by decide

/-- Claim C7 (amended): any word consisting of a single uppercase letter is
classified Capitalized — never AllCaps — by the Segment Prefixer, and by the
Whole-Text Prefixer whenever the letter is one byte wide (a multi-byte one
makes its `process_word` panic); the output is the Capitalized marker plus
the lowered letter, because the first-upper/rest-lower predicate is tested
before the all-uppercase predicate and holds vacuously with no remainder. -/
theorem single_upper_capitalized (c : Char) (h : isUppercase c = true) :
    processWordSeg [c] = capTokSeg ++ toLowerStr [c] ∧
    processWordSeg [c] ≠ allCapsTokSeg ++ toLowerStr [c] ∧
    (c.utf8Size = 1 →
      processWordNorm [c] = some (capTok ++ toLowerStr [c]) ∧
      processWordNorm [c] ≠ some (allCapsTok ++ toLowerStr [c])) := by
  have hd : isAsciiDigit c = false := isAsciiDigit_of_upper h
  have hl : isLowercase c = false := isLowercase_of_upper h
  have h1 : ([c].all isAsciiDigit) = false := by simp [hd]
  have h2 : ([c].all isLowercase) = false := by simp [hl]
  have hseg : processWordSeg [c] = capTokSeg ++ toLowerStr [c] := by
    rw [processWordSeg, if_neg (by simp [h1]), if_neg (by simp [h2]),
      if_pos (by simp [firstUpper, h])]
  refine ⟨hseg, ?_, ?_⟩
  · rw [hseg]
    simp [capTokSeg, allCapsTokSeg]
  · intro hb
    have hcc : capCondNorm [c] = some true := by
      simp [capCondNorm, h, hb]
    constructor
    · rw [processWordNorm, if_neg (by simp [h1]), if_neg (by simp [h2]), hcc]
    · rw [processWordNorm, if_neg (by simp [h1]), if_neg (by simp [h2]), hcc]
      simp [capTok, allCapsTok]

/-- Claim C7 witness at `"A"`: Capitalized with lowered form `"a"` in both
components. -/
theorem single_upper_capitalized_witness :
    processWordSeg ['A'] = capTokSeg ++ toLowerStr ['A'] ∧
    processWordNorm ['A'] = some (capTok ++ toLowerStr ['A']) :=
  ⟨(single_upper_capitalized 'A' (by decide)).1,
   ((single_upper_capitalized 'A' (by decide)).2.2 (by decide)).1⟩

/-- Claim C8: the Whole-Text Prefixer is not idempotent — `"Hello"` normalizes
to `"[CAP]hello"`, and normalizing that output again yields
`"[ALLCAPS]cap hello"`, a different text: the marker's brackets are non-word
characters, so the re-scan splits `CAP` and `hello` into two new words. -/
theorem normalizeWT_not_idempotent :
    normalizeWT "Hello".toList = some "[CAP]hello".toList ∧
    normalizeWT "[CAP]hello".toList = some "[ALLCAPS]cap hello".toList ∧
    "[ALLCAPS]cap hello".toList ≠ "[CAP]hello".toList := by decide

/-- Claim C9: the Segment Prefixer's `process_word` iterates characters
(`chars().skip(1)`) instead of byte-slicing, so even on a word whose first
character is a multi-byte uppercase letter — exactly where the Whole-Text
version's byte slice panics — it returns one of the marker-prefixed lowered
forms. -/
theorem processWordSeg_total_multibyte (c : Char) (rest : List Char)
    (hu : isUppercase c = true) (hb : 1 < c.utf8Size) :
    (processWordSeg (c :: rest) = capTokSeg ++ toLowerStr (c :: rest) ∨
     processWordSeg (c :: rest) = allCapsTokSeg ++ toLowerStr (c :: rest) ∨
     processWordSeg (c :: rest) = mixedTokSeg ++ toLowerStr (c :: rest)) ∧
    processWordNorm (c :: rest) = none := by
  have hd : isAsciiDigit c = false := isAsciiDigit_of_upper hu
  have hl : isLowercase c = false := isLowercase_of_upper hu
  have h1 : ((c :: rest).all isAsciiDigit) = false := by simp [hd]
  have h2 : ((c :: rest).all isLowercase) = false := by simp [hl]
  constructor
  · rw [processWordSeg, if_neg (by simp [h1]), if_neg (by simp [h2])]
    by_cases hr : rest.all isLowercase
    · left
      rw [if_pos (by simp [firstUpper, hu, hr])]
    · by_cases h4 : (c :: rest).all isUppercase = true
      · right; left
        rw [if_neg (by simp [firstUpper, hr]), if_pos h4]
      · right; right
        rw [if_neg (by simp [firstUpper, hr]), if_neg h4]
  · have hne1 : (c.utf8Size == 1) = false := by
      simp only [beq_eq_false_iff_ne, ne_eq]
      omega
    have hcc : capCondNorm (c :: rest) = none := by
      simp [capCondNorm, hu, hne1]
    rw [processWordNorm, if_neg (by simp [h1]), if_neg (by simp [h2]), hcc]

/-- Claim C9 witness at the word `"É"`. -/
theorem processWordSeg_total_multibyte_witness :
    (processWordSeg ['É'] = capTokSeg ++ toLowerStr ['É'] ∨
     processWordSeg ['É'] = allCapsTokSeg ++ toLowerStr ['É'] ∨
     processWordSeg ['É'] = mixedTokSeg ++ toLowerStr ['É']) ∧
    processWordNorm ['É'] = none :=
  processWordSeg_total_multibyte 'É' [] (by decide) (by decide)

/-- Claim C10: classification is not injective — the distinct words `"MiXed"`
and `"MIxeD"` produce identical output in both components, since the marker
records only the casing category and the payload is the full case-fold. -/
theorem processWord_not_injective :
    "MiXed".toList ≠ "MIxeD".toList ∧
    processWordNorm "MiXed".toList = some "[MIXED]mixed".toList ∧
    processWordNorm "MIxeD".toList = some "[MIXED]mixed".toList ∧
    processWordSeg "MiXed".toList = "[MIXED] mixed".toList ∧
    processWordSeg "MIxeD".toList = "[MIXED] mixed".toList := by decide
